import Mathlib

/-
  Verification development for the proper-job concurrency toolkit.

  The embedding is a shallow model of the three runtime components:
  the ParallelExecutor (src/src/index.ts), the AsyncBuffer
  (src/unnamed/part_009, second revision, the one with the `length`
  accessor), and the ScalingConnectionPool / PollingAsyncBuffer
  (src/unnamed/part_008 second revision, src/src/polling-async-buffer.ts).

  JavaScript runs these components single-threaded with cooperative
  scheduling: code between two `await` points is atomic, and promise
  continuations interleave only at suspension points.  Each model below
  is therefore a transition system whose steps are exactly the atomic
  segments of the source, with nondeterministic interleaving of
  completion continuations.
-/

namespace ProperJob

namespace ParallelExecutor

/-- Outcome of one user callback, fixed in advance for a modelled run:
`ok v` resolves (with `none` standing for a resolved `undefined`),
`err e` rejects with an ordinary error (errors are modelled as `Nat`
codes), `abortSignal` rejects with the distinguished `ExecutorAbortError`
sentinel of src/src/index.ts. -/
inductive COutcome (V : Type) where
  | ok (v : Option V)
  | err (e : Nat)
  | abortSignal
deriving DecidableEq

/-- The optional executor configuration fields of `ExecutorConfig`
(src/unnamed/part_002), plus the optional teardown hook of `execute`:
`teardown = none` means no teardown was passed, `some none` a teardown
that succeeds, `some (some e)` a teardown that throws error code `e`. -/
structure ECfg where
  parallel : Option Nat
  continueOnError : Option Bool
  storeOutput : Option Bool
  throwOnError : Option Bool
  maxErrors : Option Nat
  teardown : Option (Option Nat)
deriving DecidableEq

/-- The `ExecutorResults` struct of src/unnamed/part_002: `aborted` is an
optional boolean that is only ever set to `true`. -/
structure ExecResults (V : Type) where
  results : List V
  errors : List Nat
  fulfilled : Nat
  aborted : Option Bool
deriving DecidableEq

/-- How the `ExecutorPromise` finally settles: `resolved r` for
`options.resolve(results)`, `rejectedWith r` for
`options.reject(new ExecutorError(results))` — the `ExecutorError` of
src/src/executor-error.ts carries the full results struct in its
`result` field, which the model keeps as the constructor argument. -/
inductive FinOutcome (V : Type) where
  | resolved (r : ExecResults V)
  | rejectedWith (r : ExecResults V)
deriving DecidableEq

/-- State of one `ParallelExecutor` run over a list source, after source
resolution (src/src/index.ts lines 71-137).  `pendingItems` are the
items the iterator has not yet yielded, with each item's callback
outcome chosen up front; `hasIterator` is false once `next` returned
`done` and the code cleared `this.iterator`; `inflight` models the
`running` counter together with the pending outcome of each in-flight
callback; `filling` is true exactly when a `fillPromise` pass is
suspended at its `await Promise.resolve(this.iterator.next())`. -/
structure EState (V : Type) where
  pendingItems : List (COutcome V)
  hasIterator : Bool
  inflight : List (COutcome V)
  results : List V
  errors : List Nat
  fulfilled : Nat
  aborted : Option Bool
  filling : Bool
  outcome : Option (FinOutcome V)
deriving DecidableEq

/-- The `conf` helper of src/src/index.ts lines 64-69: an explicitly
provided value wins, otherwise the default applies. -/
def conf {A : Type} (defaultValue : A) (value : Option A) : A :=
  value.getD defaultValue

/-- Resolution of the `parallel` option, src/src/index.ts line 157:
`this.options.parallel || DEFAULT_CONFIG.parallel` — JavaScript `||`
falls back on every falsy value, so both `undefined` and `0` resolve to
the default `1`. -/
def resolveParallel (p : Option Nat) : Nat :=
  match p with
  | none => 1
  | some n => if n = 0 then 1 else n

/-- Truthiness of `this.results.aborted` (`aborted` is only ever set to
`true`, and `undefined` is falsy). -/
def abortedFlag {V : Type} (s : EState V) : Bool :=
  s.aborted.getD false

/-- The results struct as read when finishing. -/
def resultsOf {V : Type} (s : EState V) : ExecResults V :=
  ⟨s.results, s.errors, s.fulfilled, s.aborted⟩

/-- The `finish` method, src/src/index.ts lines 192-199: reject with an
`ExecutorError` carrying the results when `throwOnError` resolves true
and at least one error was collected, otherwise resolve with the
results.  The promise settles at most once, so an already-set outcome is
kept. -/
def finish {V : Type} (c : ECfg) (s : EState V) : EState V :=
  let throwOnError := conf true c.throwOnError
  let r := resultsOf s
  let out := if throwOnError = true ∧ 0 < s.errors.length
    then FinOutcome.rejectedWith r else FinOutcome.resolved r
  { s with outcome := s.outcome.orElse (fun _ => some out) }

/-- The teardown block of `fillPromise`, src/src/index.ts lines 174-186:
when a teardown was supplied it runs once `running` is 0; a thrown error
is pushed onto `errors` with no `maxErrors` check, and `finish` runs in
the `finally` in every case. -/
def teardownFinish {V : Type} (c : ECfg) (s : EState V) : EState V :=
  match c.teardown with
  | none => finish c s
  | some none => finish c s
  | some (some e) => finish c { s with errors := s.errors ++ [e] }

/-- The `shouldContinue` predicate computed once per fill pass,
src/src/index.ts lines 158-160. -/
def shouldContinue {V : Type} (c : ECfg) (s : EState V) : Bool :=
  (conf true c.continueOnError || s.errors.isEmpty) && !(abortedFlag s)

/-- Synchronous prefix of one `fillPromise` pass (src/src/index.ts lines
151-190), from entry up to the first suspension point: compute the
`shouldContinue` snapshot; when the while condition
`running < parallel && this.iterator` holds under the snapshot, the pass
suspends at `await Promise.resolve(this.iterator.next())`
(`filling := true`); otherwise the loop body never runs, teardown and
finish fire if `running` is 0, and the `finally` clears `filling`. -/
def fillEnter {V : Type} (c : ECfg) (s : EState V) : EState V :=
  if shouldContinue c s = true ∧ s.inflight.length < resolveParallel c.parallel ∧
      s.hasIterator = true then
    { s with filling := true }
  else
    let s1 := { s with filling := false }
    if s1.inflight.length = 0 then teardownFinish c s1 else s1

/-- Resumption of a suspended fill pass when its awaited
`iterator.next()` settles (src/src/index.ts lines 163-171 and the code
after the loop).  On `done` the iterator is cleared and the pass falls
through to the teardown check; on a value the callback is started
(`wrap(start(value))` increments `running` synchronously) and the while
condition `running < parallel && this.iterator` is rechecked — note the
`shouldContinue` snapshot is NOT re-evaluated inside the loop. -/
def fillResume {V : Type} (c : ECfg) (s : EState V) : EState V :=
  match s.pendingItems with
  | [] =>
      let s1 := { s with hasIterator := false, filling := false }
      if s1.inflight.length = 0 then teardownFinish c s1 else s1
  | o :: rest =>
      let s1 := { s with pendingItems := rest, inflight := o :: s.inflight }
      if s1.inflight.length < resolveParallel c.parallel ∧ s1.hasIterator = true then
        { s1 with filling := true }
      else
        { s1 with filling := false }

/-- The settlement handlers installed by `wrap` (src/src/index.ts lines
211-231): a resolution stores the non-undefined result when
`storeOutput` resolves true and increments `fulfilled`; a rejection with
the `ExecutorAbortError` sentinel sets `aborted = true` and records
nothing; any other rejection is pushed onto `errors` when `maxErrors`
is unset or not yet reached. -/
def settle {V : Type} (c : ECfg) (s : EState V) (o : COutcome V) : EState V :=
  match o with
  | .ok none => { s with fulfilled := s.fulfilled + 1 }
  | .ok (some v) =>
      if conf true c.storeOutput = true then
        { s with results := s.results ++ [v], fulfilled := s.fulfilled + 1 }
      else
        { s with fulfilled := s.fulfilled + 1 }
  | .abortSignal => { s with aborted := some true }
  | .err e =>
      match c.maxErrors with
      | none => { s with errors := s.errors ++ [e] }
      | some m =>
          if s.errors.length < m then { s with errors := s.errors ++ [e] } else s

/-- Full completion continuation of the in-flight callback at position
`i` (src/src/index.ts lines 211-236): the `then`/`catch` handlers
(`settle`), then the `finally` — decrement `running` and call `fill()`.
`fill` returns immediately while `filling` is set; otherwise it starts a
new pass synchronously (`fillEnter`).  An out-of-range index is a stutter
step. -/
def completeAt {V : Type} (c : ECfg) (s : EState V) (i : Nat) : EState V :=
  match s.inflight[i]? with
  | none => s
  | some o =>
      let s2 := settle c { s with inflight := s.inflight.eraseIdx i } o
      if s2.filling = true then s2 else fillEnter c s2

/-- Run start for a list source: after `begin` resolves the iterable and
its `finally` calls `fill()` for the first time (src/src/index.ts lines
95-126). -/
def initEState {V : Type} (c : ECfg) (items : List (COutcome V)) : EState V :=
  fillEnter c ⟨items, true, [], [], [], 0, none, false, none⟩

/-- One atomic scheduler step of a run: either the awaited
`iterator.next()` of the suspended fill pass settles, or the completion
continuation of some in-flight callback runs. -/
inductive EStep {V : Type} (c : ECfg) : EState V → EState V → Prop
  | resume (s : EState V) (h : s.filling = true) : EStep c s (fillResume c s)
  | complete (s : EState V) (i : Nat) : EStep c s (completeAt c s i)

/-- Reachability of an executor state within a run over the given list
source with the given per-item outcomes. -/
def EReach {V : Type} (c : ECfg) (items : List (COutcome V)) (s : EState V) : Prop :=
  Relation.ReflTransGen (EStep c) (initEState c items) s

/-- A step starts a new callback exactly when it pulls an item off the
iterator. -/
def startsCallback {V : Type} (s t : EState V) : Prop :=
  t.pendingItems.length < s.pendingItems.length

/-- Concurrency-bound invariant: the running counter never exceeds the
resolved `parallel`, and a suspended fill pass only exists while the
counter is strictly below it. -/
def InvBound {V : Type} (c : ECfg) (s : EState V) : Prop :=
  s.inflight.length ≤ resolveParallel c.parallel ∧
  (s.filling = true → s.inflight.length < resolveParallel c.parallel)

/-- The per-outcome settlement invariant used for the finish claim:
whenever the promise has settled, no callback is in flight, no fill pass
is suspended, and the outcome matches `finish`'s decision on the final
results struct. -/
def InvOutcome {V : Type} (c : ECfg) (s : EState V) : Prop :=
  ∀ o : FinOutcome V, s.outcome = some o →
    s.inflight = [] ∧ s.filling = false ∧
    ((o = FinOutcome.rejectedWith (resultsOf s) ∧ conf true c.throwOnError = true ∧
        s.errors ≠ []) ∨
     (o = FinOutcome.resolved (resultsOf s) ∧ (conf true c.throwOnError = false ∨
        s.errors = [])))


end ParallelExecutor

namespace AsyncBuffer

/-- Default `maxSize`, src/unnamed/part_009 line `DEFAULT_BUFFER_SIZE = 100`. -/
def DEFAULT_BUFFER_SIZE : Nat := 100

/-- Constructor resolution of `maxSize`:
`options && options.maxSize ? options.maxSize : DEFAULT_BUFFER_SIZE` — a
falsy (`0` or absent) option falls back to the default. -/
def resolveMaxSize (o : Option Nat) : Nat :=
  match o with
  | none => DEFAULT_BUFFER_SIZE
  | some n => if n = 0 then DEFAULT_BUFFER_SIZE else n

/-- State of one `AsyncBuffer` (src/unnamed/part_009, second revision).
`q` is the `buffer` array; `waitingPush` holds the values of `push`
calls currently suspended in `while (length >= maxSize) await
waitForPop()`, in the order their `once('pop')` listeners fire;
`quitWaiting` is a `quit()` call suspended in its drain loop;
`quitResolved` records that `quit()` has resolved.  `pushed` and
`popped` are observation histories: the order values entered and left
the `buffer` array. -/
structure BufSt (T : Type) where
  q : List T
  waitingPush : List T
  running : Bool
  quitWaiting : Bool
  quitResolved : Bool
  pushed : List T
  popped : List T
deriving DecidableEq

def initBuf (T : Type) : BufSt T := ⟨[], [], true, false, false, [], []⟩

/-- What a `push(x)` call does before its first suspension point. -/
inductive PushResult where
  | threw
  | committed
  | suspended
deriving DecidableEq

/-- What a `pop()` call does at its first opportunity. -/
inductive PopResult (T : Type) where
  | value (x : T)
  | finished
  | wouldWait
deriving DecidableEq

/-- The `push` method, src/unnamed/part_009 lines 94-104: when `running`
is false it throws synchronously before reaching any `await`; when the
buffer has room it appends and emits `push` in the same microtask;
otherwise the call suspends awaiting a `pop` event. -/
def push {T : Type} (max : Nat) (s : BufSt T) (x : T) : PushResult × BufSt T :=
  if s.running = false then (.threw, s)
  else if s.q.length < max then
    (.committed, { s with q := s.q ++ [x], pushed := s.pushed ++ [x] })
  else
    (.suspended, { s with waitingPush := s.waitingPush ++ [x] })

/-- Synchronous wake-up of suspended pushers by one `pop` event: the
oldest waiting `push` re-checks `buffer.length >= maxSize` and, with
room now available, appends its value and returns; later waiters re-wait
(they re-check against the re-filled buffer).  Pushers registered their
`once('pop')` listeners before the draining `quit` did (a push can only
suspend while `running` is still true, and re-registrations stay ahead
of `quit`'s), so this happens before `quit` re-checks. -/
def wakePusher {T : Type} (max : Nat) (s1 : BufSt T) : BufSt T :=
  match s1.waitingPush with
  | [] => s1
  | y :: ws =>
      if s1.q.length < max then
        { s1 with q := s1.q ++ [y], waitingPush := ws, pushed := s1.pushed ++ [y] }
      else s1

/-- The draining `quit`'s re-check of `while (this.buffer.length > 0)`
on a `pop` event, after the woken pushers ran: when the buffer is empty
the drain loop exits and `quit` resolves. -/
def quitRecheck {T : Type} (s2 : BufSt T) : BufSt T :=
  if s2.quitWaiting = true ∧ s2.q.isEmpty = true then
    { s2 with quitResolved := true, quitWaiting := false }
  else s2

/-- The `pop` method, src/unnamed/part_009 lines 106-123, together with
the synchronous effects of the `pop` event it emits after `shift()`.
When the buffer is empty it returns `undefined` if not running, else the
call would suspend (modelled as a stutter: the actual pop happens via a
later enabled `pop` step).  When nonempty, `shift` removes the head and
`emit('pop')` wakes the suspended pushers and the draining `quit` in
listener order. -/
def pop {T : Type} (max : Nat) (s : BufSt T) : PopResult T × BufSt T :=
  match s.q with
  | [] => if s.running = true then (.wouldWait, s) else (.finished, s)
  | x :: rest =>
      (.value x, quitRecheck (wakePusher max { s with q := rest, popped := s.popped ++ [x] }))

/-- The `quit` method, src/unnamed/part_009 lines 125-132: set
`running = false`; when the buffer is already empty the drain loop body
never runs and `quit` resolves, otherwise the call suspends awaiting
`pop` events until the buffer drains. -/
def quit {T : Type} (s : BufSt T) : BufSt T :=
  if s.q.isEmpty = true then { s with running := false, quitResolved := true }
  else { s with running := false, quitWaiting := true }

/-- Atomic steps of a buffer used by arbitrary concurrent clients: any
`push(x)` call, any `pop()` call, or a `quit()` call. -/
inductive BufStep (T : Type) (max : Nat) : BufSt T → BufSt T → Prop
  | push (s : BufSt T) (x : T) : BufStep T max s (push max s x).2
  | pop (s : BufSt T) : BufStep T max s (pop max s).2
  | quit (s : BufSt T) : BufStep T max s (quit s)

def BufReach (T : Type) (max : Nat) (s : BufSt T) : Prop :=
  Relation.ReflTransGen (BufStep T max) (initBuf T) s

/-- Combined buffer invariant: the size bound, the FIFO history
equation, and the shutdown facts needed for the after-quit claim. -/
def BufInv {T : Type} (max : Nat) (s : BufSt T) : Prop :=
  s.q.length ≤ max ∧
  s.popped ++ s.q = s.pushed ∧
  (s.quitResolved = true → s.running = false ∧ s.q = []) ∧
  (s.quitWaiting = true → s.running = false)


end AsyncBuffer

namespace ScalingConnectionPool

/-- Claim-queue view of one `ScalingConnectionPool` (src/unnamed/part_008,
second revision).  `wrappers` is the `instanceList` with `true` for a
claimed wrapper; `queue` is the pending-claim linked list
(`pendingClaimFirst` … `pendingClaimLast`) as a list of waiter tokens;
`enqueued` and `served` are histories of enqueued and resolved waiter
tokens, `served` also recording which wrapper each waiter received. -/
structure PoolQSt where
  wrappers : List Bool
  queue : List Nat
  enqueued : List Nat
  served : List (Nat × Nat)
deriving DecidableEq

def initPoolQ : PoolQSt := ⟨[], [], [], []⟩

/-- The `available` handler installed in the constructor
(src/unnamed/part_008 lines 382-395): when a wrapper is announced, the
head of the pending-claim queue (the oldest waiter) is resolved with it
and removed; the waiter's continuation in `waitForClaim` lines 676-682
then sets `claimedAt` on that wrapper. -/
def handleAvailable (s : PoolQSt) (w : Nat) : PoolQSt :=
  match s.queue with
  | [] => s
  | t :: rest =>
      { s with queue := rest, served := s.served ++ [(t, w)],
               wrappers := s.wrappers.set w true }

/-- Atomic pool events touching the claim queue:
`enqueue` is `waitForClaim` lines 638-663 appending a pending claim when
no unclaimed instantiated wrapper exists; `release` lines 424-443
unclaims a wrapper and synchronously emits `available` with it;
`scaleUp` lines 559-585 appends a fresh unclaimed wrapper and emits
`available` with it; `directClaim` is `waitForClaim`'s immediate path,
lines 640-650. -/
inductive PoolQStep : PoolQSt → PoolQSt → Prop
  | enqueue (s : PoolQSt) (h : ∀ b ∈ s.wrappers, b = true) :
      PoolQStep s { s with queue := s.queue ++ [s.enqueued.length],
                           enqueued := s.enqueued ++ [s.enqueued.length] }
  | release (s : PoolQSt) (w : Nat) (h : s.wrappers[w]? = some true) :
      PoolQStep s (handleAvailable { s with wrappers := s.wrappers.set w false } w)
  | scaleUp (s : PoolQSt) :
      PoolQStep s (handleAvailable { s with wrappers := s.wrappers ++ [false] } s.wrappers.length)
  | directClaim (s : PoolQSt) (w : Nat) (h : s.wrappers[w]? = some false) :
      PoolQStep s { s with wrappers := s.wrappers.set w true }

def PoolQReach (s : PoolQSt) : Prop :=
  Relation.ReflTransGen PoolQStep initPoolQ s

/-- FIFO history invariant of the pending-claim queue: the tokens served
so far followed by the tokens still queued are exactly the tokens ever
enqueued, in order. -/
def PoolQInv (s : PoolQSt) : Prop :=
  (s.served.map Prod.fst) ++ s.queue = s.enqueued


/-- An `InstanceWrapper` (src/unnamed/part_008 lines 337-341): `inst`
models the optional `instance` field (instances are identified by `Nat`
ids), `claimed` the optional `claimedAt` timestamp, `quitting` the
terminal mark. -/
structure KWrapper where
  inst : Option Nat
  claimed : Option Nat
  quitting : Bool
deriving DecidableEq

/-- Index of the first wrapper satisfying a predicate — the semantics
of `Array.prototype.find` on `instanceList`, kept as an index so that
the in-place mutation `unused.quitting = true` can be modelled. -/
def kFindIdx (p : KWrapper → Bool) : List KWrapper → Option Nat
  | [] => none
  | w :: ws => if p w then some 0 else (kFindIdx p ws).map (· + 1)

/-- The `find` predicate inside `killRunner` (src/unnamed/part_008 lines
507-512): with an input instance it matches only identity
(`inputInstance === wrapper.instance`); without one it matches an
unclaimed, instantiated wrapper. -/
def killPred (inputInstance : Option Nat) (w : KWrapper) : Bool :=
  match inputInstance with
  | some i => decide (w.inst = some i)
  | none => w.claimed.isNone && w.inst.isSome

/-- The `killRunner` method, src/unnamed/part_008 lines 501-517: if the
count of non-quitting wrappers is at or below `minInstances`, return
`undefined`; otherwise pick the first wrapper matching `killPred`,
falling back to `runningInstances[0]` (the first non-quitting wrapper),
mark it `quitting` and return its instance. -/
def killRunner (minInstances : Nat) (list : List KWrapper) (inputInstance : Option Nat) :
    Option Nat × List KWrapper :=
  if (list.filter (fun w => !w.quitting)).length ≤ minInstances then (none, list)
  else
    let idx :=
      match kFindIdx (killPred inputInstance) list with
      | some j => some j
      | none => kFindIdx (fun w => !w.quitting) list
    match idx with
    | some j =>
        match list[j]? with
        | some w => (w.inst, list.set j { w with quitting := true })
        | none => (none, list)
    | none => (none, list)

/-- Membership view of a pool for the scaling operations. -/
structure PoolSt where
  wrappers : List KWrapper
  minInstances : Nat
  maxInstances : Nat
deriving DecidableEq

/-- Net effect of `scaleUp` (src/unnamed/part_008 lines 559-585) on the
instance list: return unchanged at or above `maxInstances`, otherwise
append a freshly created unclaimed wrapper. -/
def scaleUp (p : PoolSt) (newInst : Nat) : PoolSt :=
  if p.maxInstances ≤ p.wrappers.length then p
  else { p with wrappers := p.wrappers ++ [⟨some newInst, none, false⟩] }

/-- Net effect of `scaleDown()` with no argument (src/unnamed/part_008
lines 519-557) on the instance list: `killRunner()` picks and marks a
victim — when it returns `undefined` the method returns with the list
unchanged; otherwise the wrapper holding the returned instance is
awaited unclaimed, spliced out and quit. -/
def scaleDown (p : PoolSt) : PoolSt :=
  match killRunner p.minInstances p.wrappers none with
  | (none, _) => p
  | (some i, marked) =>
      match kFindIdx (fun w => decide (w.inst = some i)) marked with
      | some j => { p with wrappers := marked.eraseIdx j }
      | none => { p with wrappers := marked }

end ScalingConnectionPool

namespace PollingAsyncBuffer

/-- Observable actions of one poll cycle. -/
inductive PollAct (V : Type) where
  | scaleDown
  | scaleUp
  | pushed (v : V)
deriving DecidableEq

/-- The tail of the `poll` method (src/src/polling-async-buffer.ts lines
89-107) after `pool.run` returned the fetch result `res`: on
`undefined` reset the success counter and call `pool.scaleDown()`; on a
value increment the counter and push the value; in both branches then
test `resultCount > instanceCount * 2` and, when it trips, reset the
counter and call `pool.scaleUp()`.  The function returns the new
`resultCount` and the emitted actions in order. -/
def poll {V : Type} (instanceCount : Nat) (resultCount : Nat) (res : Option V) :
    Nat × List (PollAct V) :=
  match res with
  | none =>
      let rc := 0
      let acts := [PollAct.scaleDown (V := V)]
      if instanceCount * 2 < rc then (0, acts ++ [PollAct.scaleUp]) else (rc, acts)
  | some v =>
      let rc := resultCount + 1
      let acts := [PollAct.pushed v]
      if instanceCount * 2 < rc then (0, acts ++ [PollAct.scaleUp]) else (rc, acts)

end PollingAsyncBuffer

/-! Concrete runs used to instantiate the theorems below. -/

namespace ParallelExecutor

/-- Configuration `{ parallel: 2 }`, all other options left unset. -/
def cfgTwo : ECfg := ⟨some 2, none, none, none, none, none⟩

/-- A source whose first callback rejects with the abort sentinel and
whose remaining callbacks resolve with `undefined`. -/
def itemsAbort : List (COutcome Nat) := [.abortSignal, .ok none, .ok none]

/-- Run state after `begin`'s first `fill()`: the pass is suspended at
the await of `next()` for the first item. -/
def exA0 : EState Nat := initEState cfgTwo itemsAbort

/-- The await settles with the first item; its callback starts and the
pass suspends at the await of `next()` for the second item. -/
def exA1 : EState Nat := fillResume cfgTwo exA0

/-- The first callback's rejection with the sentinel settles while the
fill pass is still suspended: `aborted` becomes true, `fill()` returns
at the `filling` guard. -/
def exA2 : EState Nat := completeAt cfgTwo exA1 0

/-- The suspended pass resumes with its stale `shouldContinue` snapshot
and starts the second callback although `aborted` is already set. -/
def exA3 : EState Nat := fillResume cfgTwo exA2

/-- A state with `aborted` set and no fill pass in flight. -/
def exQuiet : EState Nat := ⟨[.ok none], true, [.ok none], [], [], 0, some true, false, none⟩

/-- The all-defaults configuration. -/
def cfgDefault : ECfg := ⟨none, none, none, none, none, none⟩

/-- A one-item source whose callback rejects with error code 5. -/
def itemsErr : List (COutcome Nat) := [.err 5]

def exB0 : EState Nat := initEState cfgDefault itemsErr

def exB1 : EState Nat := fillResume cfgDefault exB0

def exB2 : EState Nat := completeAt cfgDefault exB1 0

/-- Final state of the one-error run: the future has been rejected with
an `ExecutorError` carrying the results. -/
def exB3 : EState Nat := fillResume cfgDefault exB2

/-- Configuration with `maxErrors: 0` and a teardown that throws error
code 7. -/
def cfgTeardown : ECfg := ⟨none, none, none, none, some 0, some (some 7)⟩

def exC0 : EState Nat := initEState cfgTeardown []

/-- Final state of the empty-source run with a throwing teardown. -/
def exC1 : EState Nat := fillResume cfgTeardown exC0

end ParallelExecutor

namespace AsyncBuffer

/-- Buffer state after a `push(3)` call on a fresh default-capacity
buffer. -/
def bufA1 : BufSt Nat := (push (resolveMaxSize none) (initBuf Nat) 3).2

/-- Buffer state after `push(3)` then `pop()`. -/
def bufA2 : BufSt Nat := (pop (resolveMaxSize none) bufA1).2

/-- Buffer state after a `quit()` call on a fresh buffer: `quit`
resolves immediately because the buffer is already empty. -/
def bufQ : BufSt Nat := quit (initBuf Nat)

end AsyncBuffer

namespace ScalingConnectionPool

/-- Pool-queue state after one `waitForClaim` enqueued a pending claim
on an empty pool. -/
def pqA1 : PoolQSt := ⟨[], [0], [0], []⟩

/-- Pool-queue state after a subsequent `scaleUp` created wrapper 0 and
its `available` event served the pending claim. -/
def pqA2 : PoolQSt := handleAvailable { pqA1 with wrappers := pqA1.wrappers ++ [false] } pqA1.wrappers.length

/-- A queue state with two pending waiters, used to instantiate the
handler facts. -/
def pqB : PoolQSt := ⟨[false, true], [4, 9], [4, 9], []⟩

/-- Two non-quitting wrappers: wrapper 0 holds instance 0 and is
claimed, wrapper 1 holds instance 1 and is unclaimed. -/
def cex8List : List KWrapper := [⟨some 0, some 5, false⟩, ⟨some 1, none, false⟩]

/-- Two non-quitting wrappers: wrapper 0 unclaimed, wrapper 1 claimed. -/
def kListA : List KWrapper := [⟨some 0, none, false⟩, ⟨some 1, some 3, false⟩]

/-- A single-wrapper pool list at the minimum. -/
def kListB : List KWrapper := [⟨some 0, none, false⟩]

/-- A pool at its maximum size. -/
def poolAtMax : PoolSt := ⟨[⟨some 0, none, false⟩], 1, 1⟩

/-- A pool at its minimum size. -/
def poolAtMin : PoolSt := ⟨[⟨some 0, none, false⟩], 1, 4⟩

end ScalingConnectionPool

/-! Helper lemmas about the executor model. -/

namespace ParallelExecutor

@[simp] theorem finish_pendingItems {V : Type} (c : ECfg) (s : EState V) :
    (finish c s).pendingItems = s.pendingItems := rfl

@[simp] theorem finish_hasIterator {V : Type} (c : ECfg) (s : EState V) :
    (finish c s).hasIterator = s.hasIterator := rfl

@[simp] theorem finish_inflight {V : Type} (c : ECfg) (s : EState V) :
    (finish c s).inflight = s.inflight := rfl

@[simp] theorem finish_results {V : Type} (c : ECfg) (s : EState V) :
    (finish c s).results = s.results := rfl

@[simp] theorem finish_errors {V : Type} (c : ECfg) (s : EState V) :
    (finish c s).errors = s.errors := rfl

@[simp] theorem finish_fulfilled {V : Type} (c : ECfg) (s : EState V) :
    (finish c s).fulfilled = s.fulfilled := rfl

@[simp] theorem finish_aborted {V : Type} (c : ECfg) (s : EState V) :
    (finish c s).aborted = s.aborted := rfl

@[simp] theorem finish_filling {V : Type} (c : ECfg) (s : EState V) :
    (finish c s).filling = s.filling := rfl

theorem finish_outcome_isSome {V : Type} (c : ECfg) (s : EState V) :
    (finish c s).outcome.isSome = true := by
  unfold finish
  cases h : s.outcome <;> simp [Option.orElse, h]

@[simp] theorem teardownFinish_pendingItems {V : Type} (c : ECfg) (s : EState V) :
    (teardownFinish c s).pendingItems = s.pendingItems := by
  unfold teardownFinish
  cases c.teardown with
  | none => rfl
  | some o => cases o <;> rfl

@[simp] theorem teardownFinish_hasIterator {V : Type} (c : ECfg) (s : EState V) :
    (teardownFinish c s).hasIterator = s.hasIterator := by
  unfold teardownFinish
  cases c.teardown with
  | none => rfl
  | some o => cases o <;> rfl

@[simp] theorem teardownFinish_inflight {V : Type} (c : ECfg) (s : EState V) :
    (teardownFinish c s).inflight = s.inflight := by
  unfold teardownFinish
  cases c.teardown with
  | none => rfl
  | some o => cases o <;> rfl

@[simp] theorem teardownFinish_fulfilled {V : Type} (c : ECfg) (s : EState V) :
    (teardownFinish c s).fulfilled = s.fulfilled := by
  unfold teardownFinish
  cases c.teardown with
  | none => rfl
  | some o => cases o <;> rfl

@[simp] theorem teardownFinish_aborted {V : Type} (c : ECfg) (s : EState V) :
    (teardownFinish c s).aborted = s.aborted := by
  unfold teardownFinish
  cases c.teardown with
  | none => rfl
  | some o => cases o <;> rfl

@[simp] theorem teardownFinish_filling {V : Type} (c : ECfg) (s : EState V) :
    (teardownFinish c s).filling = s.filling := by
  unfold teardownFinish
  cases c.teardown with
  | none => rfl
  | some o => cases o <;> rfl

theorem teardownFinish_outcome_isSome {V : Type} (c : ECfg) (s : EState V) :
    (teardownFinish c s).outcome.isSome = true := by
  unfold teardownFinish
  cases c.teardown with
  | none => exact finish_outcome_isSome c s
  | some o => cases o <;> apply finish_outcome_isSome

@[simp] theorem fillEnter_pendingItems {V : Type} (c : ECfg) (s : EState V) :
    (fillEnter c s).pendingItems = s.pendingItems := by
  unfold fillEnter
  split
  · rfl
  · dsimp only
    split <;> simp

@[simp] theorem fillEnter_hasIterator {V : Type} (c : ECfg) (s : EState V) :
    (fillEnter c s).hasIterator = s.hasIterator := by
  unfold fillEnter
  split
  · rfl
  · dsimp only
    split <;> simp

@[simp] theorem fillEnter_inflight {V : Type} (c : ECfg) (s : EState V) :
    (fillEnter c s).inflight = s.inflight := by
  unfold fillEnter
  split
  · rfl
  · dsimp only
    split <;> simp

@[simp] theorem fillEnter_fulfilled {V : Type} (c : ECfg) (s : EState V) :
    (fillEnter c s).fulfilled = s.fulfilled := by
  unfold fillEnter
  split
  · rfl
  · dsimp only
    split <;> simp

@[simp] theorem fillEnter_aborted {V : Type} (c : ECfg) (s : EState V) :
    (fillEnter c s).aborted = s.aborted := by
  unfold fillEnter
  split
  · rfl
  · dsimp only
    split <;> simp

@[simp] theorem settle_pendingItems {V : Type} (c : ECfg) (s : EState V) (o : COutcome V) :
    (settle c s o).pendingItems = s.pendingItems := by
  unfold settle
  rcases o with v | e | _
  · cases v with
    | none => rfl
    | some x => dsimp only; split <;> rfl
  · cases c.maxErrors with
    | none => rfl
    | some m => dsimp only; split <;> rfl
  · rfl

@[simp] theorem settle_hasIterator {V : Type} (c : ECfg) (s : EState V) (o : COutcome V) :
    (settle c s o).hasIterator = s.hasIterator := by
  unfold settle
  rcases o with v | e | _
  · cases v with
    | none => rfl
    | some x => dsimp only; split <;> rfl
  · cases c.maxErrors with
    | none => rfl
    | some m => dsimp only; split <;> rfl
  · rfl

@[simp] theorem settle_inflight {V : Type} (c : ECfg) (s : EState V) (o : COutcome V) :
    (settle c s o).inflight = s.inflight := by
  unfold settle
  rcases o with v | e | _
  · cases v with
    | none => rfl
    | some x => dsimp only; split <;> rfl
  · cases c.maxErrors with
    | none => rfl
    | some m => dsimp only; split <;> rfl
  · rfl

@[simp] theorem settle_filling {V : Type} (c : ECfg) (s : EState V) (o : COutcome V) :
    (settle c s o).filling = s.filling := by
  unfold settle
  rcases o with v | e | _
  · cases v with
    | none => rfl
    | some x => dsimp only; split <;> rfl
  · cases c.maxErrors with
    | none => rfl
    | some m => dsimp only; split <;> rfl
  · rfl

@[simp] theorem settle_outcome {V : Type} (c : ECfg) (s : EState V) (o : COutcome V) :
    (settle c s o).outcome = s.outcome := by
  unfold settle
  rcases o with v | e | _
  · cases v with
    | none => rfl
    | some x => dsimp only; split <;> rfl
  · cases c.maxErrors with
    | none => rfl
    | some m => dsimp only; split <;> rfl
  · rfl

@[simp] theorem completeAt_pendingItems {V : Type} (c : ECfg) (s : EState V) (i : Nat) :
    (completeAt c s i).pendingItems = s.pendingItems := by
  unfold completeAt
  cases s.inflight[i]? with
  | none => rfl
  | some o =>
      dsimp only
      split
      · simp
      · simp

theorem resolveParallel_pos (p : Option Nat) : 0 < resolveParallel p := by
  cases p with
  | none => simp [resolveParallel]
  | some n =>
      simp only [resolveParallel]
      split <;> omega

theorem invBound_fillEnter {V : Type} (c : ECfg) (s : EState V) (h : InvBound c s) :
    InvBound c (fillEnter c s) := by
  unfold InvBound at h ⊢
  unfold fillEnter
  split
  case isTrue hc => exact ⟨h.1, fun _ => hc.2.1⟩
  case isFalse hc =>
    dsimp only
    split <;> constructor <;> simp [h.1]

theorem invBound_fillResume {V : Type} (c : ECfg) (s : EState V) (hf : s.filling = true)
    (h : InvBound c s) : InvBound c (fillResume c s) := by
  unfold InvBound at h ⊢
  have hlt := h.2 hf
  unfold fillResume
  cases s.pendingItems with
  | nil =>
      dsimp only
      split
      case isTrue =>
        constructor
        · simpa using h.1
        · intro hff
          rw [teardownFinish_filling] at hff
          simp at hff
      case isFalse =>
        exact ⟨by simpa using h.1, by intro hff; simp at hff⟩
  | cons o rest =>
      dsimp only
      split
      case isTrue hc => exact ⟨Nat.le_of_lt hc.1, fun _ => hc.1⟩
      case isFalse hc =>
        refine ⟨?_, ?_⟩
        · show (o :: s.inflight).length ≤ resolveParallel c.parallel
          simp only [List.length_cons]
          omega
        · intro hff
          simp at hff

theorem invBound_completeAt {V : Type} (c : ECfg) (s : EState V) (i : Nat)
    (h : InvBound c s) : InvBound c (completeAt c s i) := by
  unfold InvBound at h
  unfold completeAt
  cases s.inflight[i]? with
  | none => exact h
  | some o =>
      dsimp only
      have hlen : (s.inflight.eraseIdx i).length ≤ s.inflight.length :=
        List.length_eraseIdx_le s.inflight i
      split
      case isTrue hfill =>
        constructor
        · simpa using le_trans hlen h.1
        · intro _
          have : s.filling = true := by simpa using hfill
          have := h.2 this
          simp only [settle_inflight]
          omega
      case isFalse hfill =>
        apply invBound_fillEnter
        constructor
        · simp only [settle_inflight]
          exact le_trans hlen h.1
        · intro hff
          exact absurd hff hfill

theorem invBound_reach {V : Type} (c : ECfg) (items : List (COutcome V)) (s : EState V)
    (h : EReach c items s) : InvBound c s := by
  induction h with
  | refl =>
      apply invBound_fillEnter
      refine ⟨?_, by intro hh; simp at hh⟩
      show ([] : List (COutcome V)).length ≤ resolveParallel c.parallel
      simp only [List.length_nil]
      exact Nat.le_of_lt (resolveParallel_pos c.parallel)
  | tail hr hstep ih =>
      cases hstep with
      | resume hf => exact invBound_fillResume c _ hf ih
      | complete i => exact invBound_completeAt c _ i ih

theorem settle_aborted_of_true {V : Type} (c : ECfg) (s : EState V) (o : COutcome V)
    (h : abortedFlag s = true) : abortedFlag (settle c s o) = true := by
  unfold settle
  rcases o with v | e | _
  · cases v with
    | none => exact h
    | some x =>
        dsimp only
        split <;> simpa [abortedFlag] using h
  · cases c.maxErrors with
    | none => exact h
    | some m =>
        dsimp only
        split <;> simpa [abortedFlag] using h
  · simp [abortedFlag]

theorem settle_abortSignal_aborted {V : Type} (c : ECfg) (s : EState V) :
    (settle c s COutcome.abortSignal).aborted = some true := rfl

theorem settle_abortSignal_fulfilled {V : Type} (c : ECfg) (s : EState V) :
    (settle c s COutcome.abortSignal).fulfilled = s.fulfilled := rfl

theorem settle_abortSignal_errors {V : Type} (c : ECfg) (s : EState V) :
    (settle c s COutcome.abortSignal).errors = s.errors := rfl

theorem abortedFlag_fillEnter {V : Type} (c : ECfg) (s : EState V) :
    abortedFlag (fillEnter c s) = abortedFlag s := by
  unfold abortedFlag
  rw [fillEnter_aborted]

theorem fillEnter_not_filling_of_aborted {V : Type} (c : ECfg) (s : EState V)
    (h : abortedFlag s = true) : (fillEnter c s).filling = false := by
  unfold fillEnter
  have hsc : shouldContinue c s = false := by
    unfold shouldContinue
    simp [h]
  rw [if_neg]
  · dsimp only
    split
    · rw [teardownFinish_filling]
    · rfl
  · intro hcon
    rw [hsc] at hcon
    exact absurd hcon.1 (by simp)

/-- Once `aborted` is set and no fill pass is suspended, both stay that
way forever. -/
theorem abortQuiet_step {V : Type} (c : ECfg) (s t : EState V)
    (ha : abortedFlag s = true) (hf : s.filling = false) (hstep : EStep c s t) :
    abortedFlag t = true ∧ t.filling = false := by
  cases hstep with
  | resume hfill => rw [hf] at hfill; exact absurd hfill (by simp)
  | complete i =>
      unfold completeAt
      cases s.inflight[i]? with
      | none => exact ⟨ha, hf⟩
      | some o =>
          dsimp only
          have ha2 : abortedFlag (settle c { s with inflight := s.inflight.eraseIdx i } o) = true :=
            settle_aborted_of_true c _ o (by simpa [abortedFlag] using ha)
          have hf2 : (settle c { s with inflight := s.inflight.eraseIdx i } o).filling = false := by
            rw [settle_filling]
            exact hf
          split
          case isTrue hft => exact ⟨ha2, by rw [hft] at hf2; exact absurd hf2 (by simp)⟩
          case isFalse hft =>
            refine ⟨?_, fillEnter_not_filling_of_aborted c _ ha2⟩
            rw [abortedFlag_fillEnter]
            exact ha2

theorem completeAt_no_start {V : Type} (c : ECfg) (s : EState V) (i : Nat) :
    ¬ startsCallback s (completeAt c s i) := by
  unfold startsCallback
  rw [completeAt_pendingItems]
  omega

theorem invOutcome_teardownFinish {V : Type} (c : ECfg) (s : EState V)
    (hout : s.outcome = none) (hin : s.inflight = []) (hfil : s.filling = false) :
    InvOutcome c (teardownFinish c s) := by
  have key : ∀ s2 : EState V, s2.outcome = none → s2.inflight = [] → s2.filling = false →
      InvOutcome c (finish c s2) := by
    intro s2 h2 hi2 hf2
    intro o ho
    unfold finish at ho
    rw [h2] at ho
    simp only [Option.orElse] at ho
    refine ⟨by simpa using hi2, by simpa using hf2, ?_⟩
    have hox : o = (if conf true c.throwOnError = true ∧ 0 < s2.errors.length
        then FinOutcome.rejectedWith (resultsOf s2) else FinOutcome.resolved (resultsOf s2)) := by
      exact Option.some_injective _ ho.symm
    have hres : resultsOf (finish c s2) = resultsOf s2 := rfl
    have herr : (finish c s2).errors = s2.errors := rfl
    rw [hres, herr]
    by_cases hcond : conf true c.throwOnError = true ∧ 0 < s2.errors.length
    · left
      rw [if_pos hcond] at hox
      refine ⟨hox, hcond.1, ?_⟩
      intro hnil
      rw [hnil] at hcond
      simp at hcond
    · right
      rw [if_neg hcond] at hox
      refine ⟨hox, ?_⟩
      rcases Decidable.not_and_iff_or_not.mp hcond with hthrow | hlen
      · left
        cases hb : conf true c.throwOnError with
        | false => rfl
        | true => exact absurd hb hthrow
      · right
        have : s2.errors.length = 0 := by omega
        exact List.length_eq_zero.mp this
  unfold teardownFinish
  cases c.teardown with
  | none => exact key s hout hin hfil
  | some o =>
      cases o with
      | none => exact key s hout hin hfil
      | some e => exact key { s with errors := s.errors ++ [e] } hout hin hfil

theorem invOutcome_fillEnter {V : Type} (c : ECfg) (s : EState V) (hout : s.outcome = none) :
    InvOutcome c (fillEnter c s) := by
  unfold fillEnter
  split
  · intro o ho
    rw [show ({ s with filling := true } : EState V).outcome = none from hout] at ho
    exact absurd ho (by simp)
  · dsimp only
    split
    case isTrue hzero =>
      apply invOutcome_teardownFinish c _ (by simpa using hout)
      · exact List.length_eq_zero.mp (by simpa using hzero)
      · rfl
    case isFalse hzero =>
      intro o ho
      rw [show ({ s with filling := false } : EState V).outcome = none from hout] at ho
      exact absurd ho (by simp)

theorem invOutcome_reach {V : Type} (c : ECfg) (items : List (COutcome V)) (s : EState V)
    (h : EReach c items s) : InvOutcome c s := by
  induction h with
  | refl => exact invOutcome_fillEnter c _ rfl
  | tail hr hstep ih =>
      rename_i b t
      cases hstep with
      | resume hfill =>
          cases hb : b.outcome with
          | some o =>
              have := (ih o hb).2.1
              rw [this] at hfill
              exact absurd hfill (by simp)
          | none =>
              unfold fillResume
              cases b.pendingItems with
              | nil =>
                  dsimp only
                  split
                  case isTrue hzero =>
                    apply invOutcome_teardownFinish c _ (by simpa using hb)
                    · exact List.length_eq_zero.mp (by simpa using hzero)
                    · rfl
                  case isFalse hzero =>
                    intro o ho
                    rw [show ({ b with hasIterator := false, filling := false } :
                        EState V).outcome = none from hb] at ho
                    exact absurd ho (by simp)
              | cons o rest =>
                  dsimp only
                  split <;>
                  · intro o2 ho2
                    rw [show (EState.outcome _ : Option (FinOutcome V)) = none from hb] at ho2
                    exact absurd ho2 (by simp)
      | complete i =>
          cases hb : b.outcome with
          | some o =>
              have hempty := (ih o hb).1
              unfold completeAt
              have : b.inflight[i]? = none := by
                rw [hempty]
                simp
              rw [this]
              exact ih
          | none =>
              unfold completeAt
              cases b.inflight[i]? with
              | none => exact ih
              | some oc =>
                  dsimp only
                  have hout2 : (settle c { b with inflight := b.inflight.eraseIdx i } oc).outcome
                      = none := by
                    rw [settle_outcome]
                    exact hb
                  split
                  case isTrue hft =>
                    intro o2 ho2
                    rw [hout2] at ho2
                    exact absurd ho2 (by simp)
                  case isFalse hft => exact invOutcome_fillEnter c _ hout2

end ParallelExecutor

namespace AsyncBuffer

theorem bufInv_push {T : Type} (max : Nat) (s : BufSt T) (x : T) (h : BufInv max s) :
    BufInv max (push max s x).2 := by
  obtain ⟨hlen, hfifo, hqr, hqw⟩ := h
  unfold push
  split
  case isTrue => exact ⟨hlen, hfifo, hqr, hqw⟩
  case isFalse hrun =>
    split
    case isTrue hroom =>
      refine ⟨?_, ?_, ?_, ?_⟩
      · simp only [List.length_append, List.length_cons, List.length_nil]
        omega
      · simp only [← List.append_assoc, hfifo]
      · intro hq
        have := (hqr (by simpa using hq)).1
        exact absurd this hrun
      · intro hq
        have := hqw (by simpa using hq)
        exact absurd this hrun
    case isFalse hroom =>
      exact ⟨by simpa using hlen, by simpa using hfifo,
        by intro hq; exact (by simpa using hqr (by simpa using hq) : _),
        by intro hq; exact (by simpa using hqw (by simpa using hq) : _)⟩

@[simp] theorem wakePusher_running {T : Type} (max : Nat) (s1 : BufSt T) :
    (wakePusher max s1).running = s1.running := by
  unfold wakePusher
  cases s1.waitingPush with
  | nil => rfl
  | cons y ws => dsimp only; split <;> rfl

@[simp] theorem wakePusher_quitWaiting {T : Type} (max : Nat) (s1 : BufSt T) :
    (wakePusher max s1).quitWaiting = s1.quitWaiting := by
  unfold wakePusher
  cases s1.waitingPush with
  | nil => rfl
  | cons y ws => dsimp only; split <;> rfl

@[simp] theorem wakePusher_quitResolved {T : Type} (max : Nat) (s1 : BufSt T) :
    (wakePusher max s1).quitResolved = s1.quitResolved := by
  unfold wakePusher
  cases s1.waitingPush with
  | nil => rfl
  | cons y ws => dsimp only; split <;> rfl

theorem wakePusher_len {T : Type} (max : Nat) (s1 : BufSt T) (h : s1.q.length ≤ max) :
    (wakePusher max s1).q.length ≤ max := by
  unfold wakePusher
  cases s1.waitingPush with
  | nil => exact h
  | cons y ws =>
      dsimp only
      split
      case isTrue hroom =>
        simp only [List.length_append, List.length_cons, List.length_nil]
        omega
      case isFalse hroom => exact h

theorem wakePusher_fifo {T : Type} (max : Nat) (s1 : BufSt T)
    (h : s1.popped ++ s1.q = s1.pushed) :
    (wakePusher max s1).popped ++ (wakePusher max s1).q = (wakePusher max s1).pushed := by
  unfold wakePusher
  cases s1.waitingPush with
  | nil => exact h
  | cons y ws =>
      dsimp only
      split
      case isTrue hroom =>
        simp only [← List.append_assoc, h]
      case isFalse hroom => exact h

theorem bufInv_quitRecheck {T : Type} (max : Nat) (u : BufSt T)
    (hlen : u.q.length ≤ max) (hfifo : u.popped ++ u.q = u.pushed)
    (hqr : u.quitResolved = true → u.running = false ∧ u.q = [])
    (hqw : u.quitWaiting = true → u.running = false) :
    BufInv max (quitRecheck u) := by
  unfold quitRecheck
  split
  case isTrue hc =>
    exact ⟨hlen, hfifo, fun _ => ⟨hqw hc.1, List.isEmpty_iff.mp hc.2⟩,
      fun hcc => absurd hcc (by simp)⟩
  case isFalse hc => exact ⟨hlen, hfifo, hqr, hqw⟩

theorem bufInv_pop {T : Type} (max : Nat) (s : BufSt T) (h : BufInv max s) :
    BufInv max (pop max s).2 := by
  obtain ⟨hlen, hfifo, hqr, hqw⟩ := h
  unfold pop
  cases hq : s.q with
  | nil =>
      dsimp only
      split <;> exact ⟨by simp [hq], by simpa [hq] using hfifo, hqr, hqw⟩
  | cons x rest =>
      have hqr2 : s.quitResolved = false := by
        cases hquit : s.quitResolved with
        | false => rfl
        | true =>
            have := (hqr hquit).2
            rw [hq] at this
            exact absurd this (by simp)
      have hlen2 : rest.length < max := by
        rw [hq] at hlen
        simp only [List.length_cons] at hlen
        omega
      dsimp only
      apply bufInv_quitRecheck
      · exact wakePusher_len max _ (by show rest.length ≤ max; omega)
      · refine wakePusher_fifo max _ ?_
        show (s.popped ++ [x]) ++ rest = s.pushed
        rw [← hfifo, hq]
        simp
      · intro hcc
        rw [wakePusher_quitResolved] at hcc
        exact absurd hcc (by simp [hqr2])
      · intro hcc
        rw [wakePusher_quitWaiting] at hcc
        rw [wakePusher_running]
        exact hqw hcc

theorem bufInv_quit {T : Type} (s : BufSt T) (max : Nat) (h : BufInv max s) :
    BufInv max (quit s) := by
  obtain ⟨hlen, hfifo, hqr, hqw⟩ := h
  unfold quit
  split
  case isTrue hempty =>
    exact ⟨by simpa using hlen, by simpa using hfifo,
      by intro _; exact ⟨rfl, by simpa using List.isEmpty_iff.mp hempty⟩,
      by intro _; rfl⟩
  case isFalse hempty =>
    refine ⟨by simpa using hlen, by simpa using hfifo, ?_, by intro _; rfl⟩
    intro hcc
    simp only [] at hcc
    have := hqr hcc
    refine ⟨rfl, this.2⟩

theorem bufInv_reach {T : Type} (max : Nat) (s : BufSt T) (h : BufReach T max s) :
    BufInv max s := by
  induction h with
  | refl => exact ⟨by simp [initBuf], by simp [initBuf], by intro hh; simp [initBuf] at hh,
      by intro hh; simp [initBuf] at hh⟩
  | tail hr hstep ih =>
      cases hstep with
      | push x => exact bufInv_push max _ x ih
      | pop => exact bufInv_pop max _ ih
      | quit => exact bufInv_quit _ max ih

end AsyncBuffer

namespace ScalingConnectionPool

theorem poolQInv_handleAvailable (s : PoolQSt) (w : Nat) (h : PoolQInv s) :
    PoolQInv (handleAvailable s w) := by
  unfold PoolQInv at h ⊢
  unfold handleAvailable
  cases hq : s.queue with
  | nil => exact h
  | cons t rest =>
      dsimp only
      rw [← h, hq]
      simp

theorem poolQInv_reach (s : PoolQSt) (h : PoolQReach s) : PoolQInv s := by
  induction h with
  | refl => rfl
  | tail hr hstep ih =>
      cases hstep with
      | enqueue hall =>
          unfold PoolQInv at ih ⊢
          dsimp only
          rw [← List.append_assoc, ih]
      | release w hcl => exact poolQInv_handleAvailable _ w ih
      | scaleUp => exact poolQInv_handleAvailable _ _ ih
      | directClaim w hcl => exact ih

theorem kFindIdx_eq_some (p : KWrapper → Bool) (l : List KWrapper) (j : Nat)
    (h : kFindIdx p l = some j) : ∃ w, l[j]? = some w ∧ p w = true := by
  induction l generalizing j with
  | nil => simp [kFindIdx] at h
  | cons w ws ih =>
      unfold kFindIdx at h
      by_cases hp : p w
      · rw [if_pos hp] at h
        cases h
        exact ⟨w, by simp, hp⟩
      · rw [if_neg hp] at h
        cases hk : kFindIdx p ws with
        | none => rw [hk] at h; simp at h
        | some j2 =>
            rw [hk] at h
            simp only [Option.map_some'] at h
            obtain ⟨w2, hw2, hpw2⟩ := ih j2 hk
            cases h
            exact ⟨w2, by simpa using hw2, hpw2⟩

theorem kFindIdx_eq_none (p : KWrapper → Bool) (l : List KWrapper)
    (h : kFindIdx p l = none) : ∀ w ∈ l, p w = false := by
  induction l with
  | nil => intro w hw; simp at hw
  | cons w ws ih =>
      unfold kFindIdx at h
      by_cases hp : p w
      · rw [if_pos hp] at h; simp at h
      · rw [if_neg hp] at h
        intro w2 hw2
        rcases List.mem_cons.mp hw2 with rfl | hmem
        · simpa using hp
        · cases hk : kFindIdx p ws with
          | none => exact ih hk w2 hmem
          | some j2 => rw [hk] at h; simp at h

theorem kFindIdx_isSome_of_mem (p : KWrapper → Bool) (l : List KWrapper) (w : KWrapper)
    (hmem : w ∈ l) (hp : p w = true) : (kFindIdx p l).isSome = true := by
  cases hk : kFindIdx p l with
  | none =>
      have := kFindIdx_eq_none p l hk w hmem
      rw [hp] at this
      exact absurd this (by simp)
  | some j => rfl

end ScalingConnectionPool

/-! Claim theorems. -/

namespace ParallelExecutor

/-- C1: in every run of `execute`, at every interleaving point the
number of user callbacks in flight is at most the resolved `parallel`
(default 1); moreover a suspended fill pass implies strict slack, and
any step that starts a new callback fires only from a state whose
running counter is strictly below `parallel`. -/
theorem executor_inflight_bounded {V : Type} (c : ECfg) (items : List (COutcome V))
    (s : EState V) (h : EReach c items s) :
    s.inflight.length ≤ resolveParallel c.parallel ∧
    (s.filling = true → s.inflight.length < resolveParallel c.parallel) ∧
    (∀ t : EState V, EStep c s t → startsCallback s t →
        s.inflight.length < resolveParallel c.parallel) := by
  have hb := invBound_reach c items s h
  refine ⟨hb.1, hb.2, ?_⟩
  intro t hstep hstart
  cases hstep with
  | resume hf => exact hb.2 hf
  | complete i => exact absurd hstart (completeAt_no_start c s i)

/-- C1 witness: the bound instantiated on the initial state of the
`parallel = 2` run. -/
theorem executor_inflight_bounded_witness :
    exA0.inflight.length ≤ resolveParallel cfgTwo.parallel ∧
    (exA0.filling = true → exA0.inflight.length < resolveParallel cfgTwo.parallel) := by
  have thm := executor_inflight_bounded cfgTwo itemsAbort exA0 Relation.ReflTransGen.refl
  exact ⟨thm.1, thm.2.1⟩

/-- C2 counterexample: in the `parallel = 2` run over
`[abortSignal, ok, ok]`, the state `exA2` is reachable (the sentinel
rejection has settled, `aborted` is true), yet the next step — the
suspended fill pass resuming with its stale `shouldContinue` snapshot —
starts another callback.  So the executor can start new callbacks after
the sentinel is observed, refuting the claim's last conjunct. -/
theorem executor_abort_start_after_cex :
    EReach cfgTwo itemsAbort exA2 ∧ EStep cfgTwo exA2 exA3 ∧
    abortedFlag exA2 = true ∧ startsCallback exA2 exA3 := by
  refine ⟨?_, EStep.resume exA2 (by decide), by decide, ?_⟩
  · exact Relation.ReflTransGen.tail
      (Relation.ReflTransGen.tail Relation.ReflTransGen.refl (EStep.resume exA0 (by decide)))
      (EStep.complete exA1 0)
  · unfold startsCallback
    decide

/-- C2 (amended): when a callback settles with the `ExecutorAbortError`
sentinel, `aborted` becomes true, `fulfilled` is not incremented, and
the settlement handler itself appends nothing to `errors`; and once
`aborted` is set with no fill pass in flight, no later step of the run
ever starts a new callback.  (A fill pass already suspended when the
sentinel settles may still start callbacks, per the counterexample.) -/
theorem executor_abort_signal_semantics {V : Type} (c : ECfg) :
    (∀ s : EState V, ∀ i : Nat, s.inflight[i]? = some COutcome.abortSignal →
        (completeAt c s i).aborted = some true ∧
        (completeAt c s i).fulfilled = s.fulfilled ∧
        (settle c { s with inflight := s.inflight.eraseIdx i } COutcome.abortSignal).errors
          = s.errors) ∧
    (∀ s u v : EState V, abortedFlag s = true → s.filling = false →
        Relation.ReflTransGen (EStep c) s u → EStep c u v → ¬ startsCallback u v) := by
  constructor
  · intro s i hi
    unfold completeAt
    rw [hi]
    dsimp only
    refine ⟨?_, ?_, rfl⟩
    · split
      · rfl
      · rw [fillEnter_aborted]
        rfl
    · split
      · rfl
      · rw [fillEnter_fulfilled]
        rfl
  · intro s u v ha hf hru
    have key : abortedFlag u = true ∧ u.filling = false := by
      induction hru with
      | refl => exact ⟨ha, hf⟩
      | tail hr hst ih => exact abortQuiet_step c _ _ ih.1 ih.2 hst
    intro hstep
    cases hstep with
    | resume hfill =>
        rw [key.2] at hfill
        exact absurd hfill (by simp)
    | complete i => exact completeAt_no_start c _ i

/-- C2 witness: the amended facts instantiated on the sentinel
completion of the concrete run and on a concrete aborted quiet state. -/
theorem executor_abort_signal_semantics_witness :
    (completeAt cfgTwo exA1 0).aborted = some true ∧
    (completeAt cfgTwo exA1 0).fulfilled = exA1.fulfilled ∧
    ¬ startsCallback exQuiet (completeAt cfgTwo exQuiet 0) := by
  have thm := executor_abort_signal_semantics (V := Nat) cfgTwo
  have h1 := thm.1 exA1 0 (by decide)
  exact ⟨h1.1, h1.2.1, thm.2 exQuiet exQuiet (completeAt cfgTwo exQuiet 0)
    (by decide) (by decide) Relation.ReflTransGen.refl (EStep.complete exQuiet 0)⟩

/-- C3: whenever the `ExecutorPromise` of a run has settled, it was
rejected with an `ExecutorError` carrying the full results struct
exactly when `throwOnError` resolves true and at least one error was
collected; otherwise it was resolved with the results struct (errors
included). -/
theorem executor_finish_semantics {V : Type} (c : ECfg) (items : List (COutcome V))
    (s : EState V) (h : EReach c items s) (o : FinOutcome V) (ho : s.outcome = some o) :
    (o = FinOutcome.rejectedWith (resultsOf s) ∧ conf true c.throwOnError = true ∧
        s.errors ≠ []) ∨
    (o = FinOutcome.resolved (resultsOf s) ∧ (conf true c.throwOnError = false ∨
        s.errors = [])) :=
  ((invOutcome_reach c items s h) o ho).2.2

/-- C3 witness: the default-options run over a single rejecting callback
ends rejected with an `ExecutorError` carrying `errors = [5]`. -/
theorem executor_finish_semantics_witness :
    (FinOutcome.rejectedWith (⟨[], [5], 0, none⟩ : ExecResults Nat)
        = FinOutcome.rejectedWith (resultsOf exB3) ∧
      conf true cfgDefault.throwOnError = true ∧ exB3.errors ≠ []) ∨
    (FinOutcome.rejectedWith (⟨[], [5], 0, none⟩ : ExecResults Nat)
        = FinOutcome.resolved (resultsOf exB3) ∧
      (conf true cfgDefault.throwOnError = false ∨ exB3.errors = [])) := by
  have hreach : EReach cfgDefault itemsErr exB3 :=
    Relation.ReflTransGen.tail
      (Relation.ReflTransGen.tail
        (Relation.ReflTransGen.tail Relation.ReflTransGen.refl (EStep.resume exB0 (by decide)))
        (EStep.complete exB1 0))
      (EStep.resume exB2 (by decide))
  exact executor_finish_semantics cfgDefault itemsErr exB3 hreach _ (by decide)

/-- C4 counterexample: with `maxErrors = 0` and a throwing teardown over
the empty source, the run finishes with the teardown error recorded in
`errors` even though `errors.length` (0) was not below the cap (0) —
the teardown catch in `fillPromise` pushes without any `maxErrors`
check, refuting the cap conjunct of the claim. -/
theorem teardown_error_cap_cex :
    EReach cfgTeardown [] exC1 ∧ cfgTeardown.maxErrors = some 0 ∧
    exC1.errors = [7] ∧ exC1.outcome.isSome = true := by
  refine ⟨?_, rfl, by decide, by decide⟩
  exact Relation.ReflTransGen.tail Relation.ReflTransGen.refl (EStep.resume exC0 (by decide))

/-- C4 (amended): a throw from the teardown is always appended to
`errors`, regardless of `maxErrors`, and the run still finishes: the
`finally` around the teardown calls `finish`, so the promise settles. -/
theorem teardown_error_semantics {V : Type} (c : ECfg) (s : EState V) (e : Nat)
    (h : c.teardown = some (some e)) :
    (teardownFinish c s).errors = s.errors ++ [e] ∧
    (teardownFinish c s).outcome.isSome = true := by
  unfold teardownFinish
  rw [h]
  exact ⟨by rw [finish_errors], finish_outcome_isSome c _⟩

/-- C4 witness: the amended fact instantiated on the `maxErrors = 0`
configuration with teardown error 7. -/
theorem teardown_error_semantics_witness :
    (teardownFinish cfgTeardown exC0).errors = exC0.errors ++ [7] ∧
    (teardownFinish cfgTeardown exC0).outcome.isSome = true :=
  teardown_error_semantics cfgTeardown exC0 7 rfl

theorem settle_parallel_invariant {V : Type} (c : ECfg) (p q : Option Nat) (s : EState V)
    (o : COutcome V) :
    settle { c with parallel := p } s o = settle { c with parallel := q } s o := by
  unfold settle
  rcases o with v | e | _
  · cases v <;> rfl
  · rfl
  · rfl

theorem teardownFinish_parallel_invariant {V : Type} (c : ECfg) (p q : Option Nat)
    (s : EState V) :
    teardownFinish { c with parallel := p } s = teardownFinish { c with parallel := q } s := rfl

theorem fillEnter_parallel_invariant {V : Type} (c : ECfg) (p q : Option Nat)
    (h : resolveParallel p = resolveParallel q) (s : EState V) :
    fillEnter { c with parallel := p } s = fillEnter { c with parallel := q } s := by
  unfold fillEnter
  rw [show resolveParallel ({ c with parallel := p } : ECfg).parallel
      = resolveParallel ({ c with parallel := q } : ECfg).parallel from h]
  rfl

theorem fillResume_parallel_invariant {V : Type} (c : ECfg) (p q : Option Nat)
    (h : resolveParallel p = resolveParallel q) (s : EState V) :
    fillResume { c with parallel := p } s = fillResume { c with parallel := q } s := by
  unfold fillResume
  rw [show resolveParallel ({ c with parallel := p } : ECfg).parallel
      = resolveParallel ({ c with parallel := q } : ECfg).parallel from h]
  rfl

theorem completeAt_parallel_invariant {V : Type} (c : ECfg) (p q : Option Nat)
    (h : resolveParallel p = resolveParallel q) (s : EState V) (i : Nat) :
    completeAt { c with parallel := p } s i = completeAt { c with parallel := q } s i := by
  unfold completeAt
  cases s.inflight[i]? with
  | none => rfl
  | some o =>
      dsimp only
      rw [settle_parallel_invariant c p q _ o, fillEnter_parallel_invariant c p q h]

theorem estep_parallel_iff {V : Type} (c : ECfg) (p q : Option Nat)
    (h : resolveParallel p = resolveParallel q) (s t : EState V) :
    EStep { c with parallel := p } s t ↔ EStep { c with parallel := q } s t := by
  constructor
  · intro hstep
    cases hstep with
    | resume hf =>
        rw [fillResume_parallel_invariant c p q h]
        exact EStep.resume _ hf
    | complete i =>
        rw [completeAt_parallel_invariant c p q h]
        exact EStep.complete _ i
  · intro hstep
    cases hstep with
    | resume hf =>
        rw [fillResume_parallel_invariant c q p h.symm]
        exact EStep.resume _ hf
    | complete i =>
        rw [completeAt_parallel_invariant c q p h.symm]
        exact EStep.complete _ i

/-- C10: `parallel: 0` behaves exactly like `parallel: 1` — the code
resolves the option as `this.options.parallel || 1`, on which `0` is
falsy, so the two configurations resolve to the same concurrency, start
from the same initial state, have the same step relation, and reach
exactly the same states (hence the same final `ExecutorResults` and
outcome). -/
theorem executor_parallel_zero_eq_one {V : Type} (c : ECfg) :
    resolveParallel (some 0) = resolveParallel (some 1) ∧
    (∀ items : List (COutcome V),
        initEState { c with parallel := some 0 } items
          = initEState { c with parallel := some 1 } items) ∧
    (∀ s t : EState V,
        EStep { c with parallel := some 0 } s t ↔ EStep { c with parallel := some 1 } s t) ∧
    (∀ items : List (COutcome V), ∀ s : EState V,
        EReach { c with parallel := some 0 } items s
          ↔ EReach { c with parallel := some 1 } items s) := by
  have h01 : resolveParallel (some 0) = resolveParallel (some 1) := by decide
  have hinit : ∀ items : List (COutcome V),
      initEState { c with parallel := some 0 } items
        = initEState { c with parallel := some 1 } items := by
    intro items
    unfold initEState
    exact fillEnter_parallel_invariant c (some 0) (some 1) h01 _
  refine ⟨h01, hinit, fun s t => estep_parallel_iff c (some 0) (some 1) h01 s t, ?_⟩
  intro items s
  constructor
  · intro hr
    unfold EReach at hr ⊢
    rw [← hinit items]
    induction hr with
    | refl => exact Relation.ReflTransGen.refl
    | tail hr2 hst ih =>
        exact ih.tail ((estep_parallel_iff c (some 0) (some 1) h01 _ _).mp hst)
  · intro hr
    unfold EReach at hr ⊢
    rw [hinit items]
    induction hr with
    | refl => exact Relation.ReflTransGen.refl
    | tail hr2 hst ih =>
        exact ih.tail ((estep_parallel_iff c (some 0) (some 1) h01 _ _).mpr hst)

end ParallelExecutor

namespace AsyncBuffer

/-- C5: in every interleaving of `push`, `pop` and `quit` calls on an
`AsyncBuffer` with resolved capacity `maxSize`, the buffer length stays
within `[0, maxSize]` (lengths are naturals, so 0 is a floor by type),
and the values popped so far, in order, followed by the current buffer
contents are exactly the values pushed so far, in order — strict FIFO:
the pop sequence is a prefix of the push sequence. -/
theorem asyncBuffer_bounds_fifo {T : Type} (o : Option Nat) (s : BufSt T)
    (h : BufReach T (resolveMaxSize o) s) :
    s.q.length ≤ resolveMaxSize o ∧ s.popped ++ s.q = s.pushed := by
  have hinv := bufInv_reach (resolveMaxSize o) s h
  exact ⟨hinv.1, hinv.2.1⟩

/-- C5 witness: the invariant instantiated after `push(3)` then `pop()`
on a default-capacity buffer. -/
theorem asyncBuffer_bounds_fifo_witness :
    bufA2.q.length ≤ resolveMaxSize none ∧ bufA2.popped ++ bufA2.q = bufA2.pushed := by
  have hreach : BufReach Nat (resolveMaxSize none) bufA2 :=
    Relation.ReflTransGen.tail
      (Relation.ReflTransGen.tail Relation.ReflTransGen.refl (BufStep.push (initBuf Nat) 3))
      (BufStep.pop bufA1)
  exact asyncBuffer_bounds_fifo none bufA2 hreach

/-- C6: in any reachable buffer state in which `quit()` has resolved,
every subsequent `push(x)` throws synchronously (the `running === false`
check fires before any `await`) and leaves the buffer unchanged, and
every subsequent `pop()` returns `undefined` immediately and leaves the
buffer unchanged. -/
theorem asyncBuffer_after_quit {T : Type} (o : Option Nat) (s : BufSt T)
    (h : BufReach T (resolveMaxSize o) s) (hq : s.quitResolved = true) :
    (∀ x : T, (push (resolveMaxSize o) s x).1 = PushResult.threw ∧
        (push (resolveMaxSize o) s x).2 = s) ∧
    (pop (resolveMaxSize o) s).1 = PopResult.finished ∧
    (pop (resolveMaxSize o) s).2 = s := by
  have hinv := bufInv_reach (resolveMaxSize o) s h
  obtain ⟨hrun, hempty⟩ := hinv.2.2.1 hq
  have hpush : ∀ x : T, push (resolveMaxSize o) s x = (PushResult.threw, s) := by
    intro x
    unfold push
    rw [if_pos hrun]
  have hpop : pop (resolveMaxSize o) s = (PopResult.finished, s) := by
    unfold pop
    rw [hempty]
    dsimp only
    rw [hrun]
    rfl
  exact ⟨fun x => ⟨by rw [hpush x], by rw [hpush x]⟩, by rw [hpop], by rw [hpop]⟩

/-- C6 witness: instantiated on the buffer obtained by calling `quit()`
on a fresh empty buffer, with a subsequent `push(5)` and `pop()`. -/
theorem asyncBuffer_after_quit_witness :
    (push (resolveMaxSize none) bufQ 5).1 = PushResult.threw ∧
    (pop (resolveMaxSize none) bufQ).1 = PopResult.finished := by
  have hreach : BufReach Nat (resolveMaxSize none) bufQ :=
    Relation.ReflTransGen.tail Relation.ReflTransGen.refl (BufStep.quit (initBuf Nat))
  have thm := asyncBuffer_after_quit none bufQ hreach (by decide)
  exact ⟨(thm.1 5).1, thm.2.1⟩

end AsyncBuffer

namespace ScalingConnectionPool

/-- C7: pending claim waiters are resolved in strict FIFO order: in
every reachable pool state, the tokens served so far followed by the
still-pending queue equal the enqueue history in order; and whenever a
wrapper becomes available (created or released) while waiters are
pending, the `available` handler hands it to the head of the queue (the
oldest waiter), removes that waiter, and marks the wrapper claimed. -/
theorem pool_pending_claims_fifo (s : PoolQSt) (h : PoolQReach s) :
    (s.served.map Prod.fst) ++ s.queue = s.enqueued ∧
    (∀ u : PoolQSt, ∀ w t : Nat, ∀ rest : List Nat, u.queue = t :: rest →
        (handleAvailable u w).served = u.served ++ [(t, w)] ∧
        (handleAvailable u w).queue = rest ∧
        (handleAvailable u w).wrappers = u.wrappers.set w true) := by
  refine ⟨poolQInv_reach s h, ?_⟩
  intro u w t rest hq
  unfold handleAvailable
  rw [hq]
  exact ⟨rfl, rfl, rfl⟩

/-- C7 witness: instantiated on the state reached by one pending claim
followed by a `scaleUp`, and on a concrete two-waiter queue state. -/
theorem pool_pending_claims_fifo_witness :
    (pqA2.served.map Prod.fst) ++ pqA2.queue = pqA2.enqueued ∧
    (handleAvailable pqB 0).served = pqB.served ++ [(4, 0)] ∧
    (handleAvailable pqB 0).queue = [9] := by
  have hreach : PoolQReach pqA2 :=
    Relation.ReflTransGen.tail
      (Relation.ReflTransGen.tail Relation.ReflTransGen.refl
        (PoolQStep.enqueue initPoolQ (by intro b hb; simp [initPoolQ] at hb)))
      (PoolQStep.scaleUp pqA1)
  have thm := pool_pending_claims_fifo pqA2 hreach
  have hb := thm.2 pqB 0 4 [9] rfl
  exact ⟨thm.1, hb.1, hb.2.1⟩

/-- C8 counterexample: `killRunner(instance)` called with an instance
that is not in the list (here id 99) does not fall back to the unclaimed
instantiated wrapper 1 as the claim's preference chain requires, but to
`runningInstances[0]` — the claimed wrapper 0 — and returns instance 0. -/
theorem killRunner_preference_cex :
    (killRunner 1 cex8List (some 99)).1 = some 0 ∧
    cex8List[1]? = some ⟨some 1, none, false⟩ ∧
    (cex8List.filter (fun w => !w.quitting)).length = 2 ∧
    ¬ (killRunner 1 cex8List (some 99)).1 = some 1 := by
  refine ⟨by decide, by decide, by decide, by decide⟩

/-- C8 (amended): `killRunner` returns `undefined` iff the count of
non-quitting wrappers is at or below `minInstances` (in pool states,
where every wrapper is instantiated).  Otherwise it marks a wrapper
quitting and returns its instance, chosen as: the wrapper holding the
given instance when one is given and present; else, when no instance
was given, the first unclaimed instantiated wrapper; and in all
remaining cases (nothing matched the find predicate — in particular a
given instance that is absent) the first non-quitting wrapper. -/
theorem killRunner_semantics (m : Nat) (list : List KWrapper) (input : Option Nat)
    (hinst : ∀ w ∈ list, w.inst.isSome = true) :
    ((killRunner m list input).1 = none ↔
        (list.filter (fun w => !w.quitting)).length ≤ m) ∧
    (∀ i : Nat, input = some i → (∃ w ∈ list, w.inst = some i) →
        m < (list.filter (fun w => !w.quitting)).length →
        (killRunner m list input).1 = some i) ∧
    (∀ j : Nat, ∀ w : KWrapper, m < (list.filter (fun w => !w.quitting)).length →
        kFindIdx (killPred input) list = some j → list[j]? = some w →
        killRunner m list input = (w.inst, list.set j { w with quitting := true })) ∧
    (∀ j : Nat, ∀ w : KWrapper, m < (list.filter (fun w => !w.quitting)).length →
        kFindIdx (killPred input) list = none →
        kFindIdx (fun w => !w.quitting) list = some j → list[j]? = some w →
        killRunner m list input = (w.inst, list.set j { w with quitting := true })) := by
  have part3 : ∀ j : Nat, ∀ w : KWrapper,
      m < (list.filter (fun w => !w.quitting)).length →
      kFindIdx (killPred input) list = some j → list[j]? = some w →
      killRunner m list input = (w.inst, list.set j { w with quitting := true }) := by
    intro j w hm hf hj
    unfold killRunner
    rw [if_neg (by omega)]
    dsimp only
    rw [hf]
    dsimp only
    rw [hj]
  have part4 : ∀ j : Nat, ∀ w : KWrapper,
      m < (list.filter (fun w => !w.quitting)).length →
      kFindIdx (killPred input) list = none →
      kFindIdx (fun w => !w.quitting) list = some j → list[j]? = some w →
      killRunner m list input = (w.inst, list.set j { w with quitting := true }) := by
    intro j w hm hf hfq hj
    unfold killRunner
    rw [if_neg (by omega)]
    dsimp only
    rw [hf]
    dsimp only
    rw [hfq]
    dsimp only
    rw [hj]
  have part2 : ∀ i : Nat, input = some i → (∃ w ∈ list, w.inst = some i) →
      m < (list.filter (fun w => !w.quitting)).length →
      (killRunner m list input).1 = some i := by
    intro i hin hex hm
    obtain ⟨w0, hmem0, hi0⟩ := hex
    have hp0 : killPred input w0 = true := by
      rw [hin]
      unfold killPred
      simp [hi0]
    have hsome := kFindIdx_isSome_of_mem (killPred input) list w0 hmem0 hp0
    cases hf : kFindIdx (killPred input) list with
    | none => rw [hf] at hsome; simp at hsome
    | some j =>
        obtain ⟨w, hj, hp⟩ := kFindIdx_eq_some (killPred input) list j hf
        have := part3 j w hm hf hj
        rw [this]
        rw [hin] at hp
        unfold killPred at hp
        simpa using hp
  refine ⟨?_, part2, part3, part4⟩
  constructor
  · intro hnone
    by_contra hgt
    have hm : m < (list.filter (fun w => !w.quitting)).length := by omega
    cases hf : kFindIdx (killPred input) list with
    | some j =>
        obtain ⟨w, hj, hp⟩ := kFindIdx_eq_some (killPred input) list j hf
        have := part3 j w hm hf hj
        rw [this] at hnone
        have hni : w.inst = none := hnone
        have hws := hinst w (List.getElem?_mem hj)
        rw [hni] at hws
        simp at hws
    | none =>
        have hex : ∃ w ∈ list, (!w.quitting) = true := by
          have hpos : 0 < (list.filter (fun w => !w.quitting)).length := by omega
          rw [List.length_pos] at hpos
          obtain ⟨w, hw⟩ := List.exists_mem_of_ne_nil _ hpos
          exact ⟨w, (List.mem_filter.mp hw).1, (List.mem_filter.mp hw).2⟩
        obtain ⟨w0, hmem0, hp0⟩ := hex
        have hsome := kFindIdx_isSome_of_mem (fun w => !w.quitting) list w0 hmem0 hp0
        cases hfq : kFindIdx (fun w => !w.quitting) list with
        | none => rw [hfq] at hsome; simp at hsome
        | some j =>
            obtain ⟨w, hj, hp⟩ := kFindIdx_eq_some _ list j hfq
            have := part4 j w hm hf hfq hj
            rw [this] at hnone
            have hni : w.inst = none := hnone
            have hws := hinst w (List.getElem?_mem hj)
            rw [hni] at hws
            simp at hws
  · intro hle
    unfold killRunner
    rw [if_pos hle]

/-- C8 witness: the amended behaviour instantiated on a pool with two
non-quitting instantiated wrappers (`killRunner(1)` marks and returns
the given instance 1) and on a single-wrapper pool at the minimum
(`killRunner()` returns `undefined`). -/
theorem killRunner_semantics_witness :
    (killRunner 1 kListA (some 1)).1 = some 1 ∧ (killRunner 1 kListB none).1 = none := by
  have thmA := killRunner_semantics 1 kListA (some 1) (by decide)
  have thmB := killRunner_semantics 1 kListB none (by decide)
  exact ⟨thmA.2.1 1 rfl ⟨⟨some 1, some 3, false⟩, by decide, rfl⟩ (by decide),
    thmB.1.mpr (by decide)⟩

end ScalingConnectionPool

namespace PollingAsyncBuffer

open ScalingConnectionPool

/-- C9: in one poll cycle, a fetch returning `undefined` resets the
success counter to 0 and invokes `pool.scaleDown()` (never `scaleUp`,
since the reset counter cannot exceed `2 × instanceCount`); a fetch
returning a value pushes it and increments the counter, and exactly when
the incremented counter exceeds `2 × instanceCount` the counter is reset
to 0 and `pool.scaleUp()` is invoked; `scaleUp` leaves the pool
unchanged at `maxInstances`, and `scaleDown` leaves it unchanged at (or
below) `minInstances`. -/
theorem polling_poll_scaling {V : Type} :
    (∀ ic rc : Nat, (poll ic rc (none : Option V)).1 = 0 ∧
        PollAct.scaleDown ∈ (poll ic rc (none : Option V)).2 ∧
        PollAct.scaleUp ∉ (poll ic rc (none : Option V)).2) ∧
    (∀ ic rc : Nat, ∀ v : V,
        (ic * 2 < rc + 1 → (poll ic rc (some v)).1 = 0 ∧
            PollAct.scaleUp ∈ (poll ic rc (some v)).2 ∧
            PollAct.pushed v ∈ (poll ic rc (some v)).2) ∧
        (¬ ic * 2 < rc + 1 → (poll ic rc (some v)).1 = rc + 1 ∧
            PollAct.scaleUp ∉ (poll ic rc (some v)).2 ∧
            PollAct.pushed v ∈ (poll ic rc (some v)).2) ∧
        PollAct.scaleDown ∉ (poll ic rc (some v)).2) ∧
    (∀ p : PoolSt, ∀ n : Nat, p.maxInstances ≤ p.wrappers.length → scaleUp p n = p) ∧
    (∀ p : PoolSt, p.wrappers.length ≤ p.minInstances → scaleDown p = p) := by
  refine ⟨?_, ?_, ?_, ?_⟩
  · intro ic rc
    unfold poll
    dsimp only
    rw [if_neg (by omega)]
    exact ⟨rfl, by simp, by simp⟩
  · intro ic rc v
    unfold poll
    dsimp only
    by_cases h2 : ic * 2 < rc + 1
    · rw [if_pos h2]
      exact ⟨fun _ => ⟨rfl, by simp, by simp⟩, fun hc => absurd h2 hc, by simp⟩
    · rw [if_neg h2]
      exact ⟨fun hc => absurd hc h2, fun _ => ⟨rfl, by simp, by simp⟩, by simp⟩
  · intro p n hmax
    unfold scaleUp
    rw [if_pos hmax]
  · intro p hmin
    unfold scaleDown
    unfold killRunner
    rw [if_pos (le_trans (List.length_filter_le _ _) hmin)]

/-- C9 witness: instantiated at `instanceCount = 1`, a success counter
crossing the threshold, a pool at its maximum, and a pool at its
minimum. -/
theorem polling_poll_scaling_witness :
    (poll 1 2 (some (5 : Nat))).1 = 0 ∧
    PollAct.scaleUp ∈ (poll 1 2 (some (5 : Nat))).2 ∧
    (poll 3 7 (none : Option Nat)).1 = 0 ∧
    PollAct.scaleDown ∈ (poll 3 7 (none : Option Nat)).2 ∧
    scaleUp poolAtMax 9 = poolAtMax ∧
    scaleDown poolAtMin = poolAtMin := by
  have thm := polling_poll_scaling (V := Nat)
  have hsome := (thm.2.1 1 2 5).1 (by decide)
  have hnone := thm.1 3 7
  exact ⟨hsome.1, hsome.2.1, hnone.1, hnone.2.1,
    thm.2.2.1 poolAtMax 9 (by decide), thm.2.2.2 poolAtMin (by decide)⟩

end PollingAsyncBuffer

end ProperJob
